import Mathlib

/-!
Shallow embedding of the pricing/simulation engine of the conditional-markets
client (source: app.js and its later revisions).  Machine floats are modelled
by exact real arithmetic; the JS `Math.sqrt` is `Real.sqrt`.  The JS
`Infinity` sentinel of `costForShares` is modelled by an `EReal`-valued
variant `costForSharesE`; the `ℝ`-valued `costForShares` agrees with it
whenever the discriminant is non-negative, which is proved to always be the
case on the documented domain (positive reserves, non-negative shares).
-/

namespace CondMarkets

open Classical

/-- Trade side, the JS string tag: the YES comparison of the source becomes a match on `Side.yes`. -/
inductive Side where
  | yes
  | no
deriving DecidableEq

/-- The AMM pool of one outcome, the JS object shape used in the multi-choice pools maps. -/
structure Pool where
  YES : ℝ
  NO : ℝ

/-- Embedding of `sharesForCost(y, n, cost, position)`:
`kSquared = y*n; nNew = n + cost; yNew = kSquared / nNew; shares = cost + (y - yNew)`
(and symmetrically for the NO side). -/
noncomputable def sharesForCost (y n cost : ℝ) (position : Side) : ℝ :=
  if cost ≤ 0 then 0
  else
    match position with
    | .yes => cost + (y - y * n / (n + cost))
    | .no => cost + (n - y * n / (y + cost))

/-- The reserve of the side not being bought (`otherPool` in the JS `costForShares`). -/
def otherPool (y n : ℝ) (position : Side) : ℝ :=
  match position with
  | .yes => n
  | .no => y

/-- The discriminant computed inside `costForShares`:
`Math.pow(y + n - shares, 2) + 4 * shares * otherPool`. -/
def costDiscriminant (y n shares : ℝ) (position : Side) : ℝ :=
  (y + n - shares) ^ 2 + 4 * shares * otherPool y n position

/-- Embedding of `costForShares(y, n, shares, position)` on the branch where the
discriminant is non-negative (the JS Infinity branch is carried by `costForSharesE`). -/
noncomputable def costForShares (y n shares : ℝ) (position : Side) : ℝ :=
  if shares ≤ 0 then 0
  else (shares - y - n + Real.sqrt (costDiscriminant y n shares position)) / 2

/-- Faithful embedding of `costForShares` including the `Infinity` sentinel returned
when the discriminant is negative. -/
noncomputable def costForSharesE (y n shares : ℝ) (position : Side) : EReal :=
  if shares ≤ 0 then 0
  else if costDiscriminant y n shares position < 0 then ⊤
  else (((shares - y - n + Real.sqrt (costDiscriminant y n shares position)) / 2 : ℝ) : EReal)

/-- Embedding of `poolAfterTrade(y, n, cost, position)`; the JS result fields
`{y: yNew, n: nNew}` are the `YES`/`NO` fields here, matching how every call
site stores them back (`{YES: updatedPool.y, NO: updatedPool.n}`). -/
noncomputable def poolAfterTrade (y n cost : ℝ) (position : Side) : Pool :=
  match position with
  | .yes => { YES := y * n / (n + cost), NO := n + cost }
  | .no => { YES := y + cost, NO := y * n / (y + cost) }

/-- Embedding of `probabilityFromPool(y, n) = n / (y + n)`. -/
noncomputable def probabilityFromPool (y n : ℝ) : ℝ := n / (y + n)

/-! Side-symmetry reductions: every NO-side formula is the YES-side formula with
the reserves swapped. -/

lemma sharesForCost_no (y n cost : ℝ) :
    sharesForCost y n cost .no = sharesForCost n y cost .yes := by
  unfold sharesForCost
  split
  · rfl
  · ring_nf

lemma costDiscriminant_no (y n shares : ℝ) :
    costDiscriminant y n shares .no = costDiscriminant n y shares .yes := by
  unfold costDiscriminant otherPool
  ring

lemma costForShares_no (y n shares : ℝ) :
    costForShares y n shares .no = costForShares n y shares .yes := by
  unfold costForShares
  rw [costDiscriminant_no]
  split
  · rfl
  · ring_nf

lemma poolAfterTrade_no (y n cost : ℝ) :
    (poolAfterTrade y n cost .no).YES = (poolAfterTrade n y cost .yes).NO ∧
    (poolAfterTrade y n cost .no).NO = (poolAfterTrade n y cost .yes).YES := by
  unfold poolAfterTrade
  exact ⟨rfl, by simp [mul_comm]⟩

/-! Closed forms and positivity for the YES side. -/

lemma sharesForCost_yes_eq (y n cost : ℝ) (hn : 0 < n) (hc : 0 ≤ cost) :
    sharesForCost y n cost .yes = cost * (y + n + cost) / (n + cost) := by
  rcases eq_or_lt_of_le hc with h | h
  · rw [sharesForCost, if_pos (le_of_eq h.symm), ← h]
    simp
  · rw [sharesForCost, if_neg (not_le.mpr h)]
    have hnc : n + cost ≠ 0 := by positivity
    field_simp
    ring

lemma sharesForCost_yes_pos (y n cost : ℝ) (hy : 0 < y) (hn : 0 < n) (hc : 0 < cost) :
    0 < sharesForCost y n cost .yes := by
  rw [sharesForCost_yes_eq y n cost hn hc.le]
  positivity

lemma sharesForCost_yes_strictMono (y n c₁ c₂ : ℝ) (hy : 0 < y) (hn : 0 < n)
    (h₁ : 0 ≤ c₁) (h₁₂ : c₁ < c₂) :
    sharesForCost y n c₁ .yes < sharesForCost y n c₂ .yes := by
  have h₂ : 0 ≤ c₂ := le_of_lt (lt_of_le_of_lt h₁ h₁₂)
  rw [sharesForCost_yes_eq y n c₁ hn h₁, sharesForCost_yes_eq y n c₂ hn h₂]
  rw [div_lt_div_iff₀ (by positivity) (by positivity)]
  have hkey : c₂ * (y + n + c₂) * (n + c₁) - c₁ * (y + n + c₁) * (n + c₂)
      = (c₂ - c₁) * ((n + c₁) * (n + c₂) + y * n) := by ring
  nlinarith [mul_pos (sub_pos.mpr h₁₂)
    (add_pos (mul_pos (by linarith : (0:ℝ) < n + c₁) (by linarith : (0:ℝ) < n + c₂))
      (mul_pos hy hn))]

lemma costDiscriminant_yes_nonneg (y n shares : ℝ) (hn : 0 ≤ n) (hs : 0 ≤ shares) :
    0 ≤ costDiscriminant y n shares .yes := by
  unfold costDiscriminant otherPool
  positivity

lemma costForShares_yes_pos (y n shares : ℝ) (_hy : 0 < y) (hn : 0 < n) (hs : 0 < shares) :
    0 < costForShares y n shares .yes := by
  rw [costForShares, if_neg (not_le.mpr hs)]
  have hlt : y + n - shares < Real.sqrt (costDiscriminant y n shares .yes) := by
    rcases le_or_lt (y + n - shares) 0 with h | h
    · refine lt_of_le_of_lt h ?_
      rw [Real.sqrt_pos]
      unfold costDiscriminant otherPool
      positivity
    · apply Real.lt_sqrt_of_sq_lt
      unfold costDiscriminant otherPool
      nlinarith
  linarith

lemma costForShares_yes_nonneg (y n shares : ℝ) (hy : 0 < y) (hn : 0 < n) (hs : 0 ≤ shares) :
    0 ≤ costForShares y n shares .yes := by
  rcases eq_or_lt_of_le hs with h | h
  · rw [costForShares, if_pos (le_of_eq h.symm)]
  · exact (costForShares_yes_pos y n shares hy hn h).le

/-- Exact evaluation of the YES-side square root in the first round trip:
for `s = sharesForCost y n c .yes`, the discriminant at `s` is the square of
`((n + c) ^ 2 + y * n) / (n + c)`. -/
lemma costForShares_sharesForCost_yes (y n c : ℝ) (hy : 0 < y) (hn : 0 < n) (hc : 0 ≤ c) :
    costForShares y n (sharesForCost y n c .yes) .yes = c := by
  rcases eq_or_lt_of_le hc with h | h
  · rw [← h, sharesForCost, if_pos le_rfl, costForShares, if_pos le_rfl]
  · have hs := sharesForCost_yes_pos y n c hy hn h
    rw [sharesForCost_yes_eq y n c hn h.le] at hs ⊢
    rw [costForShares, if_neg (not_le.mpr hs)]
    have hnc : (0:ℝ) < n + c := by linarith
    have hT : (0:ℝ) < ((n + c) ^ 2 + y * n) / (n + c) := by positivity
    have hdisc : costDiscriminant y n (c * (y + n + c) / (n + c)) .yes
        = (((n + c) ^ 2 + y * n) / (n + c)) ^ 2 := by
      unfold costDiscriminant otherPool
      field_simp
      ring
    rw [hdisc, Real.sqrt_sq hT.le]
    field_simp
    ring

/-- Second round trip, YES side: buying with the cost quoted for `s` shares
returns exactly `s` shares. -/
lemma sharesForCost_costForShares_yes (y n s : ℝ) (hy : 0 < y) (hn : 0 < n) (hs : 0 ≤ s) :
    sharesForCost y n (costForShares y n s .yes) .yes = s := by
  rcases eq_or_lt_of_le hs with h | h
  · rw [← h, costForShares, if_pos le_rfl, sharesForCost, if_pos le_rfl]
  · set c := costForShares y n s .yes with hc
    have hcpos := costForShares_yes_pos y n s hy hn h
    have hnc : (0:ℝ) < n + c := by linarith
    have hds : 0 ≤ costDiscriminant y n s .yes :=
      costDiscriminant_yes_nonneg y n s hn.le hs
    have hsqrt : Real.sqrt (costDiscriminant y n s .yes) = 2 * c + y + n - s := by
      rw [hc, costForShares, if_neg (not_le.mpr h)]
      ring
    have hsq : costDiscriminant y n s .yes = (2 * c + y + n - s) ^ 2 := by
      rw [← hsqrt, Real.sq_sqrt hds]
    have hkey : s * (n + c) = c * (c + y + n) := by
      unfold costDiscriminant otherPool at hsq
      nlinarith [hsq]
    rw [sharesForCost_yes_eq y n c hn hcpos.le]
    rw [div_eq_iff (ne_of_gt hnc)] at *
    nlinarith [hkey]

/-! ## Multi-Outcome Equilibrium Simulator (part_002 lines 67-284) -/

/-- A 4-outcome PoolSet: the market of this client always has exactly four answers. -/
def PoolSet := Fin 4 → Pool

/-- Embedding of `sumOfProbabilities(pools)`: sum of `probabilityFromPool` over the four pools. -/
noncomputable def sumOfProbabilities (pools : PoolSet) : ℝ :=
  ∑ i, probabilityFromPool (pools i).YES (pools i).NO

/-- Total cost of the NO legs of `simulateMultiChoiceYesBuy`: the JS loop buys
`noShares` NO in each answer other than the target, each purchase against that
still untouched pool of that answer, and accumulates the costs. -/
noncomputable def totalNoCost (pools : PoolSet) (target : Fin 4) (noShares : ℝ) : ℝ :=
  ∑ i ∈ Finset.univ.filter (· ≠ target),
    costForShares (pools i).YES (pools i).NO noShares .no

/-- The `!isFinite(cost)` guard of the NO-leg loop: the cost of a NO leg is the
Infinity sentinel exactly when `noShares > 0` and its discriminant is negative. -/
def noLegsOk (pools : PoolSet) (target : Fin 4) (noShares : ℝ) : Prop :=
  ∀ i, i ≠ target →
    noShares ≤ 0 ∨ 0 ≤ costDiscriminant (pools i).YES (pools i).NO noShares .no

/-- Pool states after the NO legs: each non-target pool is updated by
`poolAfterTrade` with its own NO-leg cost; the JS loop touches each key exactly
once, so the sequential object mutation is this pointwise map. -/
noncomputable def poolsAfterNoLegs (pools : PoolSet) (target : Fin 4) (noShares : ℝ) : PoolSet :=
  fun i =>
    if i = target then pools i
    else
      poolAfterTrade (pools i).YES (pools i).NO
        (costForShares (pools i).YES (pools i).NO noShares .no) .no

/-- Result record of `simulateMultiChoiceYesBuy`. -/
structure YesBuyResult where
  newPools : PoolSet
  yesShares : ℝ
  netNoCost : ℝ
  directYesCost : ℝ
  redeemedYesShares : ℝ
  directYesShares : ℝ

/-- Embedding of `simulateMultiChoiceYesBuy(allPools, targetId, betAmount, noShares)`:
buy `noShares` NO in the three other answers, redeem (`noShares * (n - 2)` mana
plus `noShares` YES in the target, with `n = 4`), then spend any remaining
budget as a direct YES buy in the target.  Returns `none` (JS `null`) when a NO
leg is infeasible or the budget is exceeded by more than the 1e-4 slack. -/
noncomputable def simulateMultiChoiceYesBuy (pools : PoolSet) (target : Fin 4)
    (betAmount noShares : ℝ) : Option YesBuyResult :=
  if noLegsOk pools target noShares then
    let redeemedMana := noShares * (4 - 2)
    let netNoCost := totalNoCost pools target noShares - redeemedMana
    let directYesBudget := betAmount - netNoCost
    if directYesBudget < -0.0001 then none
    else
      let pools1 := poolsAfterNoLegs pools target noShares
      if 0.0001 < directYesBudget then
        let tp := pools1 target
        some
          { newPools := fun i =>
              if i = target then poolAfterTrade tp.YES tp.NO directYesBudget .yes
              else pools1 i
            yesShares := noShares + sharesForCost tp.YES tp.NO directYesBudget .yes
            netNoCost := netNoCost
            directYesCost := max 0 directYesBudget
            redeemedYesShares := noShares
            directYesShares := sharesForCost tp.YES tp.NO directYesBudget .yes }
      else
        some
          { newPools := pools1
            yesShares := noShares + 0
            netNoCost := netNoCost
            directYesCost := max 0 directYesBudget
            redeemedYesShares := noShares
            directYesShares := 0 }
  else none

/-- Result record of `simulateMultiChoiceTrade`. -/
structure TradeSim where
  newPools : PoolSet
  shares : ℝ

/-- State of the noShares bisection in `simulateMultiChoiceTrade`.  The JS pair
`bestResult` / `bestSumP` (initialised `null` / `Infinity`, always written
together) is the single `Option` field `best`; `done` models the loop `break`. -/
structure BisectState where
  lo : ℝ
  hi : ℝ
  best : Option (YesBuyResult × ℝ)
  done : Bool

/-- One iteration of the `Σp = 1` bisection of `simulateMultiChoiceTrade`. -/
noncomputable def bisectStep (pools : PoolSet) (target : Fin 4) (cost : ℝ)
    (s : BisectState) : BisectState :=
  if s.done then s
  else
    let mid := (s.lo + s.hi) / 2
    match simulateMultiChoiceYesBuy pools target cost mid with
    | none => { s with hi := mid }
    | some r =>
      let sumP := sumOfProbabilities r.newPools
      let best :=
        match s.best with
        | none => some (r, sumP)
        | some (rb, bp) => if |sumP - 1| < |bp - 1| then some (r, sumP) else some (rb, bp)
      if |sumP - 1| < 0.0001 then { s with best := best, done := true }
      else if 1 < sumP then { lo := mid, hi := s.hi, best := best, done := false }
      else { lo := s.lo, hi := mid, best := best, done := false }

/-- The bisection loop, fuel-bounded exactly like the JS `for` loop. -/
noncomputable def bisectIter (pools : PoolSet) (target : Fin 4) (cost : ℝ) :
    ℕ → BisectState → BisectState
  | 0, s => s
  | k + 1, s => bisectIter pools target cost k (bisectStep pools target cost s)

lemma bisectIter_zero (pools : PoolSet) (target : Fin 4) (cost : ℝ) (s : BisectState) :
    bisectIter pools target cost 0 s = s := rfl

lemma bisectIter_succ (pools : PoolSet) (target : Fin 4) (cost : ℝ) (k : ℕ) (s : BisectState) :
    bisectIter pools target cost (k + 1) s
      = bisectIter pools target cost k (bisectStep pools target cost s) := rfl

attribute [irreducible] bisectIter

/-- The plain Binary CPMM Core result used for NO-side trades and as the
fallback when no bisection candidate exists: only the target pool is updated. -/
noncomputable def binaryTrade (pools : PoolSet) (target : Fin 4) (cost : ℝ)
    (position : Side) : TradeSim :=
  { newPools := fun i =>
      if i = target then
        poolAfterTrade (pools target).YES (pools target).NO cost position
      else pools i
    shares := sharesForCost (pools target).YES (pools target).NO cost position }

/-- The `bestResult` / `bestSumP` pair left by the 60-iteration bisection of
`simulateMultiChoiceTrade`, starting from `lo = 0`, `hi = cost * 2`. -/
noncomputable def bisectFinalBest (pools : PoolSet) (target : Fin 4) (cost : ℝ) :
    Option (YesBuyResult × ℝ) :=
  (bisectIter pools target cost 60
    { lo := 0, hi := cost * 2, best := none, done := false }).best

/-- Embedding of `simulateMultiChoiceTrade(allPools, targetId, cost, position)`:
NO-side trades fall back to the binary formula; YES-side trades bisect
`noShares` over `[0, 2 * cost]` for 60 iterations and return the best-seen
candidate, falling back to the binary formula when none exists. -/
noncomputable def simulateMultiChoiceTrade (pools : PoolSet) (target : Fin 4)
    (cost : ℝ) (position : Side) : TradeSim :=
  match position with
  | .no => binaryTrade pools target cost .no
  | .yes =>
    match bisectFinalBest pools target cost with
    | none => binaryTrade pools target cost .yes
    | some (r, _) => { newPools := r.newPools, shares := r.yesShares }

/-- Result record of `multiChoiceCostForShares`. -/
structure CostResult where
  cost : ℝ
  newPools : PoolSet

/-- One iteration of the cost bisection in `multiChoiceCostForShares`. -/
noncomputable def costBisectStep (pools : PoolSet) (target : Fin 4)
    (targetShares : ℝ) (position : Side) (p : ℝ × ℝ) : ℝ × ℝ :=
  let mid := (p.1 + p.2) / 2
  if (simulateMultiChoiceTrade pools target mid position).shares < targetShares then
    (mid, p.2)
  else (p.1, mid)

/-- The 50-iteration cost bisection loop of `multiChoiceCostForShares`. -/
noncomputable def costBisectIter (pools : PoolSet) (target : Fin 4)
    (targetShares : ℝ) (position : Side) : ℕ → ℝ × ℝ → ℝ × ℝ
  | 0, p => p
  | k + 1, p => costBisectIter pools target targetShares position k
      (costBisectStep pools target targetShares position p)

attribute [irreducible] costBisectIter

/-- The geometric upper-bound expansion of `multiChoiceCostForShares`
terminates: doubling `hi` eventually satisfies the `hi < 1000000` exit guard. -/
lemma expandExists (pools : PoolSet) (target : Fin 4) (targetShares : ℝ)
    (position : Side) (ht : 0 < targetShares) :
    ∃ k : ℕ,
      targetShares ≤
          (simulateMultiChoiceTrade pools target (targetShares * 2 * 2 ^ k) position).shares ∨
        (1000000 : ℝ) ≤ targetShares * 2 * 2 ^ k := by
  obtain ⟨k, hk⟩ :=
    pow_unbounded_of_one_lt ((1000000 : ℝ) / (targetShares * 2)) (by norm_num : (1:ℝ) < 2)
  refine ⟨k, Or.inr ?_⟩
  rw [div_lt_iff₀ (by positivity)] at hk
  nlinarith

/-- Embedding of `multiChoiceCostForShares(allPools, targetId, targetShares, position)`:
NO-side or non-positive requests fall back to the binary `costForShares`;
otherwise `hi` starts at `targetShares * 2` and doubles until the simulated
share yield meets the target or `hi` reaches 1e6 (`Nat.find` picks the first
doubling count satisfying the exit guard, exactly the JS `while` loop), then 50
bisection iterations over `[0, hi]` give the quoted cost. -/
noncomputable def multiChoiceCostForShares (pools : PoolSet) (target : Fin 4)
    (targetShares : ℝ) (position : Side) : CostResult :=
  if h : position = .no ∨ targetShares ≤ 0 then
    { cost := costForShares (pools target).YES (pools target).NO targetShares position
      newPools := pools }
  else
    have ht : 0 < targetShares := lt_of_not_le fun hle => h (Or.inr hle)
    let k := Nat.find (expandExists pools target targetShares position ht)
    let hi := targetShares * 2 * 2 ^ k
    let final := costBisectIter pools target targetShares position 50 (0, hi)
    let cost := (final.1 + final.2) / 2
    { cost := cost
      newPools := (simulateMultiChoiceTrade pools target cost position).newPools }

/-! ## Sequential Trade Planner: marginal (row/column) preview
(part_002 lines 5197-5250, the computational core of `updateMarginalTradePreview`). -/

/-- The even split of `updateMarginalTradePreview`:
`perCellAmount = amount / config.cells.length`. -/
noncomputable def marginalPerCellAmount (amount : ℝ) (cells : List (Fin 4)) : ℝ :=
  amount / cells.length

/-- The per-leg share estimates of `updateMarginalTradePreview`: each cell is
priced with the binary `sharesForCost` against the snapshot pool of that cell (the
pools of this embedding are always present, so the probability-based fallback
branch of the JS is not taken). -/
noncomputable def marginalEstShares (pools : PoolSet) (cells : List (Fin 4))
    (amount : ℝ) : List ℝ :=
  cells.map fun c =>
    sharesForCost (pools c).YES (pools c).NO (marginalPerCellAmount amount cells) .yes

/-- Spec-side definition for the refinement comparison in C9, following the
words of the spec: price each marginal leg through the Equilibrium Simulator
sequentially, applying the updated PoolSet of the first leg before pricing the
second leg. -/
noncomputable def marginalEstSharesSpec (pools : PoolSet) (c₁ c₂ : Fin 4)
    (amount : ℝ) : ℝ × ℝ :=
  let leg1 := simulateMultiChoiceTrade pools c₁ (amount / 2) .yes
  let leg2 := simulateMultiChoiceTrade leg1.newPools c₂ (amount / 2) .yes
  (leg1.shares, leg2.shares)

/-! ## Correlation Weight Solver (part_002 lines 3702-3739).
The function is pure rational arithmetic, so it is embedded computably over ℚ. -/

/-- Joint probabilities of the 2x2 market. -/
structure JointProbs where
  a_yes_b_yes : ℚ
  a_yes_b_no : ℚ
  a_no_b_yes : ℚ
  a_no_b_no : ℚ

/-- Per-outcome share weights returned by the solver. -/
structure CorrWeights where
  s1 : ℚ
  s2 : ℚ
  s3 : ℚ
  s4 : ℚ
deriving DecidableEq

/-- Coefficient `a = (1 - pA) * p12` of the reduced 2x2 system. -/
def corrA (p : JointProbs) : ℚ := (1 - (p.a_yes_b_yes + p.a_yes_b_no)) * p.a_yes_b_no

/-- Coefficient `b = -pA * p21` of the reduced 2x2 system. -/
def corrB (p : JointProbs) : ℚ := -(p.a_yes_b_yes + p.a_yes_b_no) * p.a_no_b_yes

/-- Coefficient `c = -pB * p12` of the reduced 2x2 system. -/
def corrC (p : JointProbs) : ℚ := -(p.a_yes_b_yes + p.a_no_b_yes) * p.a_yes_b_no

/-- Coefficient `d = (1 - pB) * p21` of the reduced 2x2 system. -/
def corrD (p : JointProbs) : ℚ := (1 - (p.a_yes_b_yes + p.a_no_b_yes)) * p.a_no_b_yes

/-- Right-hand side `e = -(1 - pA) * p11` of the reduced 2x2 system. -/
def corrE (p : JointProbs) : ℚ := -(1 - (p.a_yes_b_yes + p.a_yes_b_no)) * p.a_yes_b_yes

/-- Right-hand side `f = -(1 - pB) * p11` of the reduced 2x2 system. -/
def corrF (p : JointProbs) : ℚ := -(1 - (p.a_yes_b_yes + p.a_no_b_yes)) * p.a_yes_b_yes

/-- The determinant `det = a * d - b * c`. -/
def corrDet (p : JointProbs) : ℚ := corrA p * corrD p - corrB p * corrC p

/-- Embedding of `computeNeutralCorrelationWeights(probs)`: fixes `s1 = 1`,
`s4 = 0` and solves the two neutrality equations for `(s2, s3)` by the Cramer
rule, returning the trivial `(1, 0, 0, 1)` fallback when `|det| < 1e-10`. -/
def computeNeutralCorrelationWeights (probs : JointProbs) : CorrWeights :=
  if |corrDet probs| < 1e-10 then { s1 := 1, s2 := 0, s3 := 0, s4 := 1 }
  else
    { s1 := 1
      s2 := (corrE probs * corrD probs - corrB probs * corrF probs) / corrDet probs
      s3 := (corrA probs * corrF probs - corrE probs * corrC probs) / corrDet probs
      s4 := 0 }

/-! ## Core algebra shared by the claims about the Binary CPMM Core. -/

lemma costDiscriminant_nonneg (y n shares : ℝ) (position : Side)
    (hy : 0 ≤ y) (hn : 0 ≤ n) (hs : 0 ≤ shares) :
    0 ≤ costDiscriminant y n shares position := by
  cases position
  · exact costDiscriminant_yes_nonneg y n shares hn hs
  · rw [costDiscriminant_no]
    exact costDiscriminant_yes_nonneg n y shares hy hs

lemma costForShares_nonneg (y n shares : ℝ) (position : Side)
    (hy : 0 < y) (hn : 0 < n) (hs : 0 ≤ shares) :
    0 ≤ costForShares y n shares position := by
  cases position
  · exact costForShares_yes_nonneg y n shares hy hn hs
  · rw [costForShares_no]
    exact costForShares_yes_nonneg n y shares hn hy hs

lemma costForShares_pos (y n shares : ℝ) (position : Side)
    (hy : 0 < y) (hn : 0 < n) (hs : 0 < shares) :
    0 < costForShares y n shares position := by
  cases position
  · exact costForShares_yes_pos y n shares hy hn hs
  · rw [costForShares_no]
    exact costForShares_yes_pos n y shares hn hy hs

lemma costForSharesE_eq_coe (y n shares : ℝ) (position : Side)
    (hy : 0 < y) (hn : 0 < n) (hs : 0 ≤ shares) :
    costForSharesE y n shares position = ((costForShares y n shares position : ℝ) : EReal) := by
  unfold costForSharesE costForShares
  by_cases h : shares ≤ 0
  · simp [h]
  · have hd : 0 ≤ costDiscriminant y n shares position :=
      costDiscriminant_nonneg y n shares position hy.le hn.le hs
    rw [if_neg h, if_neg h, if_neg (not_lt.mpr hd)]

lemma costForShares_sharesForCost (y n c : ℝ) (position : Side)
    (hy : 0 < y) (hn : 0 < n) (hc : 0 ≤ c) :
    costForShares y n (sharesForCost y n c position) position = c := by
  cases position
  · exact costForShares_sharesForCost_yes y n c hy hn hc
  · rw [sharesForCost_no, costForShares_no]
    exact costForShares_sharesForCost_yes n y c hn hy hc

lemma sharesForCost_costForShares (y n s : ℝ) (position : Side)
    (hy : 0 < y) (hn : 0 < n) (hs : 0 ≤ s) :
    sharesForCost y n (costForShares y n s position) position = s := by
  cases position
  · exact sharesForCost_costForShares_yes y n s hy hn hs
  · rw [costForShares_no, sharesForCost_no]
    exact sharesForCost_costForShares_yes n y s hn hy hs

lemma sharesForCost_strictMono (y n c₁ c₂ : ℝ) (position : Side) (hy : 0 < y) (hn : 0 < n)
    (h₁ : 0 ≤ c₁) (h₁₂ : c₁ < c₂) :
    sharesForCost y n c₁ position < sharesForCost y n c₂ position := by
  cases position
  · exact sharesForCost_yes_strictMono y n c₁ c₂ hy hn h₁ h₁₂
  · rw [sharesForCost_no, sharesForCost_no]
    exact sharesForCost_yes_strictMono n y c₁ c₂ hn hy h₁ h₁₂

lemma costForShares_strictMono (y n s₁ s₂ : ℝ) (position : Side) (hy : 0 < y) (hn : 0 < n)
    (h₁ : 0 ≤ s₁) (h₁₂ : s₁ < s₂) :
    costForShares y n s₁ position < costForShares y n s₂ position := by
  by_contra hcon
  push_neg at hcon
  have h₂ : 0 ≤ s₂ := le_of_lt (lt_of_le_of_lt h₁ h₁₂)
  have hf₁ : sharesForCost y n (costForShares y n s₁ position) position = s₁ :=
    sharesForCost_costForShares y n s₁ position hy hn h₁
  have hf₂ : sharesForCost y n (costForShares y n s₂ position) position = s₂ :=
    sharesForCost_costForShares y n s₂ position hy hn h₂
  have hc₂ : 0 ≤ costForShares y n s₂ position :=
    costForShares_nonneg y n s₂ position hy hn h₂
  rcases eq_or_lt_of_le hcon with h | h
  · rw [h] at hf₂
    rw [hf₁] at hf₂
    exact absurd hf₂ (ne_of_lt h₁₂)
  · have := sharesForCost_strictMono y n _ _ position hy hn hc₂ h
    rw [hf₁, hf₂] at this
    exact absurd h₁₂ (not_lt.mpr this.le)

/-- C2: for every pool with positive reserves, buying back the cost quoted for
`s` shares returns exactly `s` shares, and the cost quoted for the shares a
budget buys is exactly that budget; both round trips are therefore within the
claimed 1e-6 relative error. -/
theorem C2_roundtrip (y n s c : ℝ) (position : Side)
    (hy : 0 < y) (hn : 0 < n) (hs : 0 ≤ s) (hc : 0 ≤ c) :
    |sharesForCost y n (costForShares y n s position) position - s| ≤ 1e-6 * s ∧
    |costForShares y n (sharesForCost y n c position) position - c| ≤ 1e-6 * c := by
  rw [sharesForCost_costForShares y n s position hy hn hs,
    costForShares_sharesForCost y n c position hy hn hc, sub_self, sub_self, abs_zero]
  constructor <;> positivity

theorem C2_roundtrip_witness :
    (0:ℝ) < 100 ∧
    (|sharesForCost 100 100 (costForShares 100 100 10 .yes) .yes - 10| ≤ 1e-6 * 10 ∧
      |costForShares 100 100 (sharesForCost 100 100 10 .yes) .yes - 10| ≤ 1e-6 * 10) :=
  ⟨by norm_num,
    C2_roundtrip 100 100 10 10 .yes (by norm_num) (by norm_num) (by norm_num) (by norm_num)⟩

/-- C3: for every pool with positive reserves and every non-negative cost,
`poolAfterTrade` preserves the constant product `yesReserve * noReserve`
exactly (the embedding is exact real arithmetic). -/
theorem C3_invariant (y n cost : ℝ) (position : Side)
    (hy : 0 < y) (hn : 0 < n) (hc : 0 ≤ cost) :
    (poolAfterTrade y n cost position).YES * (poolAfterTrade y n cost position).NO = y * n := by
  cases position
  · show y * n / (n + cost) * (n + cost) = y * n
    rw [div_mul_cancel₀]
    positivity
  · show (y + cost) * (y * n / (y + cost)) = y * n
    rw [mul_div_cancel₀]
    positivity

theorem C3_invariant_witness :
    (0:ℝ) < 100 ∧
    (poolAfterTrade 100 100 10 .yes).YES * (poolAfterTrade 100 100 10 .yes).NO
      = (100:ℝ) * 100 :=
  ⟨by norm_num, C3_invariant 100 100 10 .yes (by norm_num) (by norm_num) (by norm_num)⟩

/-- C8: on every pool with positive reserves and on the non-negative domain of
the numeric policy, `sharesForCost` is strictly increasing in the cost and
`costForShares` is strictly increasing in the share count, on both sides. -/
theorem C8_monotone (y n a b : ℝ) (position : Side)
    (hy : 0 < y) (hn : 0 < n) (ha : 0 ≤ a) (hab : a < b) :
    sharesForCost y n a position < sharesForCost y n b position ∧
    costForShares y n a position < costForShares y n b position :=
  ⟨sharesForCost_strictMono y n a b position hy hn ha hab,
    costForShares_strictMono y n a b position hy hn ha hab⟩

theorem C8_monotone_witness :
    (0:ℝ) < 100 ∧
    (sharesForCost 100 100 10 .yes < sharesForCost 100 100 11 .yes ∧
      costForShares 100 100 10 .yes < costForShares 100 100 11 .yes) :=
  ⟨by norm_num,
    C8_monotone 100 100 10 11 .yes (by norm_num) (by norm_num) (by norm_num) (by norm_num)⟩

/-- C10: for positive reserves and non-negative shares, the discriminant inside
`costForShares` is non-negative, so the Infinity branch of the faithful
`costForSharesE` is unreachable (it coincides with the finite real value) and
the returned cost is a finite non-negative real. -/
theorem C10_discriminant (y n shares : ℝ) (position : Side)
    (hy : 0 < y) (hn : 0 < n) (hs : 0 ≤ shares) :
    0 ≤ costDiscriminant y n shares position ∧
    costForSharesE y n shares position = ((costForShares y n shares position : ℝ) : EReal) ∧
    0 ≤ costForShares y n shares position :=
  ⟨costDiscriminant_nonneg y n shares position hy.le hn.le hs,
    costForSharesE_eq_coe y n shares position hy hn hs,
    costForShares_nonneg y n shares position hy hn hs⟩

theorem C10_discriminant_witness :
    (0:ℝ) < 100 ∧
    (0 ≤ costDiscriminant 100 100 10 .no ∧
      costForSharesE 100 100 10 .no = ((costForShares 100 100 10 .no : ℝ) : EReal) ∧
      0 ≤ costForShares 100 100 10 .no) :=
  ⟨by norm_num, C10_discriminant 100 100 10 .no (by norm_num) (by norm_num) (by norm_num)⟩

/-! ## Correlation Weight Solver: C7. -/

/-- C7: the solver returns the trivial `(1, 0, 0, 1)` fallback exactly when the
absolute determinant of the reduced 2x2 system is below the 1e-10 threshold
(so it never divides by a near-zero determinant), and otherwise returns
`s1 = 1`, `s4 = 0` with `(s2, s3)` solving the two neutrality equations. -/
theorem C7_solver (p : JointProbs) :
    (|corrDet p| < 1e-10 →
      computeNeutralCorrelationWeights p = { s1 := 1, s2 := 0, s3 := 0, s4 := 1 }) ∧
    (¬ |corrDet p| < 1e-10 →
      (computeNeutralCorrelationWeights p).s1 = 1 ∧
      (computeNeutralCorrelationWeights p).s4 = 0 ∧
      corrA p * (computeNeutralCorrelationWeights p).s2 +
          corrB p * (computeNeutralCorrelationWeights p).s3 = corrE p ∧
      corrC p * (computeNeutralCorrelationWeights p).s2 +
          corrD p * (computeNeutralCorrelationWeights p).s3 = corrF p) := by
  constructor
  · intro h
    rw [computeNeutralCorrelationWeights, if_pos h]
  · intro h
    rw [computeNeutralCorrelationWeights, if_neg h]
    have hdet : corrDet p ≠ 0 := by
      intro h0
      exact h (by rw [h0]; norm_num)
    refine ⟨rfl, ?_, ?_, ?_⟩
    · rfl
    · show corrA p * ((corrE p * corrD p - corrB p * corrF p) / corrDet p) +
          corrB p * ((corrA p * corrF p - corrE p * corrC p) / corrDet p) = corrE p
      rw [← mul_div_assoc, ← mul_div_assoc, div_add_div_same, div_eq_iff hdet, corrDet]
      ring
    · show corrC p * ((corrE p * corrD p - corrB p * corrF p) / corrDet p) +
          corrD p * ((corrA p * corrF p - corrE p * corrC p) / corrDet p) = corrF p
      rw [← mul_div_assoc, ← mul_div_assoc, div_add_div_same, div_eq_iff hdet, corrDet]
      ring

/-- The degenerate independence case: all four joint probabilities are 1/4. -/
def independentProbs : JointProbs :=
  { a_yes_b_yes := 1/4, a_yes_b_no := 1/4, a_no_b_yes := 1/4, a_no_b_no := 1/4 }

theorem C7_solver_witness :
    |corrDet independentProbs| < 1e-10 ∧
    computeNeutralCorrelationWeights independentProbs
      = { s1 := 1, s2 := 0, s3 := 0, s4 := 1 } := by
  have h : |corrDet independentProbs| < 1e-10 := by
    norm_num [corrDet, corrA, corrB, corrC, corrD, independentProbs]
  exact ⟨h, (C7_solver independentProbs).1 h⟩

/-! ## Concrete PoolSets used by several claims. -/

/-- Four pools each with reserves `{YES: 100, NO: 100}` (spec scenario B). -/
noncomputable def eqPools : PoolSet := fun _ => { YES := 100, NO := 100 }

/-! ## C4: redemption accounting inside `simulateMultiChoiceYesBuy`. -/

/-- C4: whenever `simulateMultiChoiceYesBuy` succeeds, the redemption step
yields exactly `noShares` YES shares in the target, the net hedge cost is the
total NO-purchase cost minus `noShares * (n - 2)` with `n = 4`, and the total
YES shares are the redeemed shares plus the direct YES purchase shares. -/
theorem C4_redemption (pools : PoolSet) (target : Fin 4) (betAmount noShares : ℝ)
    (r : YesBuyResult) (_hns : 0 ≤ noShares)
    (h : simulateMultiChoiceYesBuy pools target betAmount noShares = some r) :
    r.redeemedYesShares = noShares ∧
    r.netNoCost = totalNoCost pools target noShares - noShares * (4 - 2) ∧
    r.yesShares = r.redeemedYesShares + r.directYesShares := by
  simp only [simulateMultiChoiceYesBuy] at h
  split_ifs at h
  all_goals rw [Option.some.injEq] at h
  all_goals subst h
  all_goals exact ⟨rfl, rfl, rfl⟩

/-- The result of `simulateMultiChoiceYesBuy` on four balanced pools with a
zero bet and zero noShares: nothing trades. -/
noncomputable def yesBuyZero : YesBuyResult :=
  { newPools := eqPools, yesShares := 0 + 0, netNoCost := 0 - 0 * (4 - 2)
    directYesCost := max 0 (0 - (0 - 0 * (4 - 2))), redeemedYesShares := 0
    directYesShares := 0 }

lemma totalNoCost_zero : totalNoCost eqPools 0 0 = 0 := by
  unfold totalNoCost
  refine Finset.sum_eq_zero fun i _ => ?_
  rw [costForShares, if_pos le_rfl]

lemma poolsAfterNoLegs_zero : poolsAfterNoLegs eqPools 0 0 = eqPools := by
  funext i
  unfold poolsAfterNoLegs
  split
  · rfl
  · rw [costForShares, if_pos le_rfl]
    show poolAfterTrade 100 100 0 .no = Pool.mk 100 100
    unfold poolAfterTrade
    norm_num

lemma yesBuyZero_eval : simulateMultiChoiceYesBuy eqPools 0 0 0 = some yesBuyZero := by
  have hOk : noLegsOk eqPools 0 0 := fun i _ => Or.inl le_rfl
  simp only [simulateMultiChoiceYesBuy, totalNoCost_zero, poolsAfterNoLegs_zero]
  rw [if_pos hOk, if_neg (by norm_num), if_neg (by norm_num)]
  rfl

theorem C4_redemption_witness :
    (0:ℝ) ≤ 0 ∧
    (yesBuyZero.redeemedYesShares = 0 ∧
      yesBuyZero.netNoCost = totalNoCost eqPools 0 0 - 0 * (4 - 2) ∧
      yesBuyZero.yesShares = yesBuyZero.redeemedYesShares + yesBuyZero.directYesShares) :=
  ⟨le_rfl, C4_redemption eqPools 0 0 0 yesBuyZero le_rfl yesBuyZero_eval⟩

/-! ## C6: NO-side trades degrade to the Binary CPMM Core. -/

/-- C6: a NO-side `simulateMultiChoiceTrade` returns exactly the plain binary
CPMM result: `sharesForCost` of the target pool, target pool updated by
`poolAfterTrade`, all other pools unchanged. -/
theorem C6_no_side (pools : PoolSet) (target : Fin 4) (cost : ℝ) :
    (simulateMultiChoiceTrade pools target cost .no).shares
        = sharesForCost (pools target).YES (pools target).NO cost .no ∧
    (simulateMultiChoiceTrade pools target cost .no).newPools target
        = poolAfterTrade (pools target).YES (pools target).NO cost .no ∧
    ∀ i, i ≠ target → (simulateMultiChoiceTrade pools target cost .no).newPools i = pools i := by
  refine ⟨rfl, ?_, fun i hi => ?_⟩
  · show (if target = target then _ else _) = _
    rw [if_pos rfl]
  · show (if i = target then _ else _) = _
    rw [if_neg hi]

theorem C6_no_side_witness :
    ((1 : Fin 4) ≠ 0 ∧ (simulateMultiChoiceTrade eqPools 0 5 .no).newPools 1 = eqPools 1) ∧
    (simulateMultiChoiceTrade eqPools 0 5 .no).shares
      = sharesForCost (eqPools 0).YES (eqPools 0).NO 5 .no :=
  ⟨⟨by decide, (C6_no_side eqPools 0 5).2.2 1 (by decide)⟩, (C6_no_side eqPools 0 5).1⟩

/-! ## Invariants of the noShares bisection, shared by C1, C5 and C9. -/

/-- Soundness of the tracked best candidate: it is the output of
`simulateMultiChoiceYesBuy` at some visited midpoint in `(0, 2 * cost)`,
paired with the Σp of its pools. -/
def BestOK (pools : PoolSet) (target : Fin 4) (cost : ℝ)
    (best : Option (YesBuyResult × ℝ)) : Prop :=
  ∀ r b, best = some (r, b) →
    ∃ nS, 0 < nS ∧ nS < cost * 2 ∧
      simulateMultiChoiceYesBuy pools target cost nS = some r ∧
      b = sumOfProbabilities r.newPools

/-- Loop invariant of the bisection of `simulateMultiChoiceTrade`. -/
def BisectInv (pools : PoolSet) (target : Fin 4) (cost : ℝ) (s : BisectState) : Prop :=
  0 ≤ s.lo ∧ s.lo < s.hi ∧ s.hi ≤ cost * 2 ∧ BestOK pools target cost s.best

lemma bisectStep_inv (pools : PoolSet) (target : Fin 4) (cost : ℝ) (s : BisectState)
    (h : BisectInv pools target cost s) :
    BisectInv pools target cost (bisectStep pools target cost s) := by
  obtain ⟨hlo, hlh, hhi, hbest⟩ := h
  unfold bisectStep
  by_cases hd : s.done
  · rw [if_pos hd]
    exact ⟨hlo, hlh, hhi, hbest⟩
  · rw [if_neg hd]
    have hm1 : s.lo < (s.lo + s.hi) / 2 := by linarith
    have hm2 : (s.lo + s.hi) / 2 < s.hi := by linarith
    have hm0 : 0 < (s.lo + s.hi) / 2 := lt_of_le_of_lt hlo hm1
    have hm2c : (s.lo + s.hi) / 2 < cost * 2 := lt_of_lt_of_le hm2 hhi
    cases heq : simulateMultiChoiceYesBuy pools target cost ((s.lo + s.hi) / 2) with
    | none =>
      simp only [heq]
      exact ⟨hlo, hm1, le_of_lt hm2c, hbest⟩
    | some r =>
      simp only [heq]
      have hbest2 : BestOK pools target cost
          (match s.best with
            | none => some (r, sumOfProbabilities r.newPools)
            | some (rb, bp) =>
              if |sumOfProbabilities r.newPools - 1| < |bp - 1| then
                some (r, sumOfProbabilities r.newPools)
              else some (rb, bp)) := by
        cases hb : s.best with
        | none =>
          intro r2 b2 h2
          rw [Option.some.injEq] at h2
          cases h2
          exact ⟨(s.lo + s.hi) / 2, hm0, hm2c, heq, rfl⟩
        | some rb =>
          obtain ⟨rb1, bp1⟩ := rb
          dsimp only
          by_cases hcmp : |sumOfProbabilities r.newPools - 1| < |bp1 - 1|
          · rw [if_pos hcmp]
            intro r2 b2 h2
            rw [Option.some.injEq] at h2
            cases h2
            exact ⟨(s.lo + s.hi) / 2, hm0, hm2c, heq, rfl⟩
          · rw [if_neg hcmp]
            intro r2 b2 h2
            exact hbest r2 b2 (hb ▸ h2)
      by_cases hclose : |sumOfProbabilities r.newPools - 1| < 0.0001
      · rw [if_pos hclose]
        exact ⟨hlo, hlh, hhi, hbest2⟩
      · rw [if_neg hclose]
        by_cases hgt : 1 < sumOfProbabilities r.newPools
        · rw [if_pos hgt]
          exact ⟨le_of_lt hm0, hm2, hhi, hbest2⟩
        · rw [if_neg hgt]
          exact ⟨hlo, hm1, le_of_lt hm2c, hbest2⟩

lemma bisectIter_inv (pools : PoolSet) (target : Fin 4) (cost : ℝ) (k : ℕ) :
    ∀ s : BisectState, BisectInv pools target cost s →
      BisectInv pools target cost (bisectIter pools target cost k s) := by
  induction k with
  | zero => intro s h; rw [bisectIter_zero]; exact h
  | succ k ih =>
    intro s h
    rw [bisectIter_succ]
    exact ih _ (bisectStep_inv pools target cost s h)

lemma bisectStep_best_isSome (pools : PoolSet) (target : Fin 4) (cost : ℝ)
    (s : BisectState) (h : s.best.isSome) :
    (bisectStep pools target cost s).best.isSome := by
  unfold bisectStep
  by_cases hd : s.done
  · rw [if_pos hd]; exact h
  · rw [if_neg hd]
    cases heq : simulateMultiChoiceYesBuy pools target cost ((s.lo + s.hi) / 2) with
    | none =>
      simp only [heq]
      exact h
    | some r =>
      simp only [heq]
      have : (match s.best with
          | none => some (r, sumOfProbabilities r.newPools)
          | some (rb, bp) =>
            if |sumOfProbabilities r.newPools - 1| < |bp - 1| then
              some (r, sumOfProbabilities r.newPools)
            else some (rb, bp)).isSome := by
        cases s.best with
        | none => rfl
        | some rb =>
          obtain ⟨rb1, bp1⟩ := rb
          dsimp only
          by_cases hcmp : |sumOfProbabilities r.newPools - 1| < |bp1 - 1|
          · rw [if_pos hcmp]; rfl
          · rw [if_neg hcmp]; rfl
      by_cases hclose : |sumOfProbabilities r.newPools - 1| < 0.0001
      · rw [if_pos hclose]; exact this
      · rw [if_neg hclose]
        by_cases hgt : 1 < sumOfProbabilities r.newPools
        · rw [if_pos hgt]; exact this
        · rw [if_neg hgt]; exact this

lemma bisectIter_best_isSome (pools : PoolSet) (target : Fin 4) (cost : ℝ) (k : ℕ) :
    ∀ s : BisectState, s.best.isSome →
      (bisectIter pools target cost k s).best.isSome := by
  induction k with
  | zero => intro s h; rw [bisectIter_zero]; exact h
  | succ k ih =>
    intro s h
    rw [bisectIter_succ]
    exact ih _ (bisectStep_best_isSome pools target cost s h)

lemma bisectStep_best_none (pools : PoolSet) (target : Fin 4) (cost : ℝ)
    (hall : ∀ nS, simulateMultiChoiceYesBuy pools target cost nS = none)
    (s : BisectState) (h : s.best = none) :
    (bisectStep pools target cost s).best = none := by
  unfold bisectStep
  by_cases hd : s.done
  · rw [if_pos hd]; exact h
  · rw [if_neg hd]
    simp only [hall]
    exact h

lemma bisectIter_best_none (pools : PoolSet) (target : Fin 4) (cost : ℝ)
    (hall : ∀ nS, simulateMultiChoiceYesBuy pools target cost nS = none) (k : ℕ) :
    ∀ s : BisectState, s.best = none →
      (bisectIter pools target cost k s).best = none := by
  induction k with
  | zero => intro s h; rw [bisectIter_zero]; exact h
  | succ k ih =>
    intro s h
    rw [bisectIter_succ]
    exact ih _ (bisectStep_best_none pools target cost hall s h)

/-- Unfolding of the YES branch of `simulateMultiChoiceTrade`. -/
lemma simulateMultiChoiceTrade_yes_def (pools : PoolSet) (target : Fin 4) (cost : ℝ) :
    simulateMultiChoiceTrade pools target cost .yes =
      (match bisectFinalBest pools target cost with
        | none => binaryTrade pools target cost .yes
        | some (r, _) => { newPools := r.newPools, shares := r.yesShares } : TradeSim) := rfl

/-- Characterization of a YES-side `simulateMultiChoiceTrade`: it returns
either the binary fallback or the output of `simulateMultiChoiceYesBuy` at
some visited `noShares` in `(0, 2 * cost)`. -/
lemma simulateMultiChoiceTrade_yes_cases (pools : PoolSet) (target : Fin 4)
    (cost : ℝ) (hc : 0 < cost) :
    simulateMultiChoiceTrade pools target cost .yes = binaryTrade pools target cost .yes ∨
    ∃ nS r, 0 < nS ∧ nS < cost * 2 ∧
      simulateMultiChoiceYesBuy pools target cost nS = some r ∧
      simulateMultiChoiceTrade pools target cost .yes
        = { newPools := r.newPools, shares := r.yesShares } := by
  have hinv : BisectInv pools target cost
      (bisectIter pools target cost 60 { lo := 0, hi := cost * 2, best := none, done := false }) :=
    bisectIter_inv pools target cost 60 _
      ⟨le_rfl, by simpa using mul_pos hc (by norm_num : (0:ℝ) < 2), le_rfl,
        fun r b h => Option.noConfusion h⟩
  have hbb : BestOK pools target cost (bisectFinalBest pools target cost) := hinv.2.2.2
  cases hfin : bisectFinalBest pools target cost with
  | none =>
    refine Or.inl ?_
    rw [simulateMultiChoiceTrade_yes_def, hfin]
  | some rb =>
    obtain ⟨r, b⟩ := rb
    obtain ⟨nS, hnS0, hnS2, heq, _⟩ := hbb r b hfin
    refine Or.inr ⟨nS, r, hnS0, hnS2, heq, ?_⟩
    rw [simulateMultiChoiceTrade_yes_def, hfin]

/-- C5: the searches are fuel-bounded total functions (60 bisection iterations
over `[0, 2 * cost]`; 50 iterations after a `Nat.find`-bounded geometric
expansion), every YES-side trade returns either a bisection candidate or the
plain binary CPMM fallback, the fallback is returned whenever no feasible
candidate exists, and the geometric expansion of `multiChoiceCostForShares`
always reaches its exit guard. -/
theorem C5_termination (pools : PoolSet) (target : Fin 4) (cost : ℝ) (hc : 0 < cost) :
    (simulateMultiChoiceTrade pools target cost .yes = binaryTrade pools target cost .yes ∨
      ∃ nS r, 0 < nS ∧ nS < cost * 2 ∧
        simulateMultiChoiceYesBuy pools target cost nS = some r ∧
        simulateMultiChoiceTrade pools target cost .yes
          = { newPools := r.newPools, shares := r.yesShares }) ∧
    ((∀ nS, simulateMultiChoiceYesBuy pools target cost nS = none) →
      simulateMultiChoiceTrade pools target cost .yes = binaryTrade pools target cost .yes) ∧
    (∀ (sh : ℝ) (hs : 0 < sh),
      sh ≤ (simulateMultiChoiceTrade pools target
          (sh * 2 * 2 ^ Nat.find (expandExists pools target sh .yes hs)) .yes).shares ∨
        (1000000 : ℝ) ≤ sh * 2 * 2 ^ Nat.find (expandExists pools target sh .yes hs)) := by
  refine ⟨simulateMultiChoiceTrade_yes_cases pools target cost hc, fun hall => ?_,
    fun sh hs => Nat.find_spec (expandExists pools target sh .yes hs)⟩
  have hnone : bisectFinalBest pools target cost = none :=
    bisectIter_best_none pools target cost hall 60 _ rfl
  rw [simulateMultiChoiceTrade_yes_def, hnone]

theorem C5_termination_witness :
    (0:ℝ) < 10 ∧
    ((simulateMultiChoiceTrade eqPools 0 10 .yes = binaryTrade eqPools 0 10 .yes ∨
      ∃ nS r, 0 < nS ∧ nS < 10 * 2 ∧
        simulateMultiChoiceYesBuy eqPools 0 10 nS = some r ∧
        simulateMultiChoiceTrade eqPools 0 10 .yes
          = { newPools := r.newPools, shares := r.yesShares }) ∧
    ((∀ nS, simulateMultiChoiceYesBuy eqPools 0 10 nS = none) →
      simulateMultiChoiceTrade eqPools 0 10 .yes = binaryTrade eqPools 0 10 .yes) ∧
    (∀ (sh : ℝ) (hs : 0 < sh),
      sh ≤ (simulateMultiChoiceTrade eqPools 0
          (sh * 2 * 2 ^ Nat.find (expandExists eqPools 0 sh .yes hs)) .yes).shares ∨
        (1000000 : ℝ) ≤ sh * 2 * 2 ^ Nat.find (expandExists eqPools 0 sh .yes hs))) :=
  ⟨by norm_num, C5_termination eqPools 0 10 (by norm_num)⟩

/-! ## Probability movement under single-pool trades. -/

lemma prob_after_yes_eq (y n b : ℝ) (hy : 0 < y) (hn : 0 < n) (hb : 0 ≤ b) :
    probabilityFromPool (poolAfterTrade y n b .yes).YES (poolAfterTrade y n b .yes).NO
      = (n + b) ^ 2 / ((n + b) ^ 2 + y * n) := by
  unfold probabilityFromPool poolAfterTrade
  have hnb : (0:ℝ) < n + b := by linarith
  rw [div_eq_div_iff (by positivity) (by positivity)]
  field_simp
  ring

lemma prob_after_no_eq (y n c : ℝ) (hy : 0 < y) (hn : 0 < n) (hc : 0 ≤ c) :
    probabilityFromPool (poolAfterTrade y n c .no).YES (poolAfterTrade y n c .no).NO
      = y * n / ((y + c) ^ 2 + y * n) := by
  unfold probabilityFromPool poolAfterTrade
  have hyc : (0:ℝ) < y + c := by linarith
  rw [div_eq_div_iff (by positivity) (by positivity)]
  field_simp
  ring

lemma prob_after_yes_gt (y n b : ℝ) (hy : 0 < y) (hn : 0 < n) (hb : 0 < b) :
    probabilityFromPool y n
      < probabilityFromPool (poolAfterTrade y n b .yes).YES (poolAfterTrade y n b .yes).NO := by
  rw [prob_after_yes_eq y n b hy hn hb.le]
  unfold probabilityFromPool
  rw [div_lt_div_iff₀ (by positivity) (by positivity)]
  nlinarith [mul_pos hy hn, mul_pos hb hn, mul_pos hy (mul_pos hb hn), mul_pos hy (mul_pos hb hb)]

lemma prob_after_no_lt (y n c : ℝ) (hy : 0 < y) (hn : 0 < n) (hc : 0 < c) :
    probabilityFromPool (poolAfterTrade y n c .no).YES (poolAfterTrade y n c .no).NO
      < probabilityFromPool y n := by
  rw [prob_after_no_eq y n c hy hn hc.le]
  unfold probabilityFromPool
  rw [div_lt_div_iff₀ (by positivity) (by positivity)]
  nlinarith [mul_pos hn (mul_pos hc hc), mul_pos hn (mul_pos hy hc)]

/-! ## Analysis of the balanced four-pool market (spec scenario B). -/

lemma eq_totalNoCost (s : ℝ) :
    totalNoCost eqPools 0 s = 3 * costForShares 100 100 s .no := by
  unfold totalNoCost
  rw [show (Finset.univ.filter (· ≠ (0 : Fin 4))) = ({1, 2, 3} : Finset (Fin 4)) from by decide]
  rw [Finset.sum_insert (by decide), Finset.sum_insert (by decide), Finset.sum_singleton]
  show costForShares 100 100 s .no + (costForShares 100 100 s .no
    + costForShares 100 100 s .no) = 3 * costForShares 100 100 s .no
  ring

lemma eq_discriminant_no (s : ℝ) : costDiscriminant 100 100 s .no = s ^ 2 + 40000 := by
  unfold costDiscriminant otherPool
  ring

/-- On a `{100, 100}` pool the hedge is self-financing: for `0 < s < 150` the
three NO legs cost strictly less than the `2 * s` redemption. -/
lemma eq_netNoCost_lt (s : ℝ) (hs0 : 0 < s) (hs : s < 150) :
    3 * costForShares 100 100 s .no < 2 * s := by
  rw [costForShares, if_neg (not_le.mpr hs0), eq_discriminant_no]
  have h6 : (0:ℝ) < (s + 600) / 3 := by linarith
  have hsq : Real.sqrt (s ^ 2 + 40000) < (s + 600) / 3 := by
    rw [Real.sqrt_lt' h6, div_pow, lt_div_iff₀ (by norm_num : (0:ℝ) < 3 ^ 2)]
    nlinarith
  linarith

lemma eq_noLegsOk (s : ℝ) (hs0 : 0 ≤ s) : noLegsOk eqPools 0 s := fun i _ =>
  Or.inr (costDiscriminant_nonneg (eqPools i).YES (eqPools i).NO s .no
    (by norm_num [eqPools]) (by norm_num [eqPools]) hs0)

/-- Inversion of a successful `simulateMultiChoiceYesBuy` on the balanced
market with budget 10: the direct budget `b` exceeds 10 (the hedge is
self-financing), the target pool absorbs a YES buy of `b`, every other pool
absorbs the NO leg, and the shares are `s` redeemed plus the direct buy. -/
lemma eq_candidate (s : ℝ) (hs0 : 0 < s) (hs20 : s < 20) (r : YesBuyResult)
    (h : simulateMultiChoiceYesBuy eqPools 0 10 s = some r) :
    ∃ b : ℝ, 10 < b ∧
      r.newPools 0 = poolAfterTrade 100 100 b .yes ∧
      (∀ i : Fin 4, i ≠ 0 →
        r.newPools i = poolAfterTrade 100 100 (costForShares 100 100 s .no) .no) ∧
      r.yesShares = s + sharesForCost 100 100 b .yes := by
  have hnet := eq_netNoCost_lt s hs0 (hs20.trans (by norm_num))
  have hs42 : s * (4 - 2) = 2 * s := by ring
  simp only [simulateMultiChoiceYesBuy, eq_totalNoCost] at h
  split_ifs at h with h1 h2 h3
  · rw [Option.some.injEq] at h
    subst h
    refine ⟨10 - (3 * costForShares 100 100 s .no - s * (4 - 2)), by linarith, ?_, ?_, ?_⟩
    · dsimp only
      rw [if_pos rfl]
      rfl
    · intro i hi
      dsimp only
      rw [if_neg hi]
      unfold poolsAfterNoLegs
      rw [if_neg hi]
      rfl
    · rfl
  · exfalso
    rw [hs42] at h3
    linarith

lemma eq_candidate_isSome (s : ℝ) (hs0 : 0 < s) (hs : s < 150) :
    (simulateMultiChoiceYesBuy eqPools 0 10 s).isSome := by
  have hnet := eq_netNoCost_lt s hs0 hs
  simp only [simulateMultiChoiceYesBuy, eq_totalNoCost]
  rw [if_pos (eq_noLegsOk s hs0.le)]
  rw [if_neg (by push_neg; nlinarith)]
  split_ifs <;> simp

lemma bisectStep_best_isSome_of_mid (pools : PoolSet) (target : Fin 4) (cost : ℝ)
    (s : BisectState) (hd : s.done = false)
    (hsome : (simulateMultiChoiceYesBuy pools target cost ((s.lo + s.hi) / 2)).isSome) :
    (bisectStep pools target cost s).best.isSome := by
  unfold bisectStep
  rw [if_neg (by rw [hd]; exact Bool.false_ne_true)]
  obtain ⟨r, hr⟩ := Option.isSome_iff_exists.mp hsome
  simp only [hr]
  have hb : (match s.best with
      | none => some (r, sumOfProbabilities r.newPools)
      | some (rb, bp) =>
        if |sumOfProbabilities r.newPools - 1| < |bp - 1| then
          some (r, sumOfProbabilities r.newPools)
        else some (rb, bp)).isSome := by
    cases s.best with
    | none => rfl
    | some rb =>
      obtain ⟨rb1, bp1⟩ := rb
      dsimp only
      by_cases hcmp : |sumOfProbabilities r.newPools - 1| < |bp1 - 1|
      · rw [if_pos hcmp]; rfl
      · rw [if_neg hcmp]; rfl
  by_cases hclose : |sumOfProbabilities r.newPools - 1| < 0.0001
  · rw [if_pos hclose]; exact hb
  · rw [if_neg hclose]
    by_cases hgt : 1 < sumOfProbabilities r.newPools
    · rw [if_pos hgt]; exact hb
    · rw [if_neg hgt]; exact hb

/-- On the balanced market with budget 10 the bisection always keeps a
candidate (the very first midpoint is feasible), so the returned trade is the
`simulateMultiChoiceYesBuy` output at some visited `noShares` in `(0, 20)`. -/
lemma eq_trade_candidate :
    ∃ s r, 0 < s ∧ s < 20 ∧ simulateMultiChoiceYesBuy eqPools 0 10 s = some r ∧
      simulateMultiChoiceTrade eqPools 0 10 .yes
        = { newPools := r.newPools, shares := r.yesShares } := by
  have h1 : (bisectStep eqPools 0 10
      { lo := 0, hi := 10 * 2, best := none, done := false }).best.isSome := by
    apply bisectStep_best_isSome_of_mid _ _ _ _ rfl
    exact eq_candidate_isSome ((0 + 10 * 2) / 2) (by norm_num) (by norm_num)
  have h2 : (bisectFinalBest eqPools 0 10).isSome := by
    unfold bisectFinalBest
    rw [show (60 : ℕ) = 59 + 1 from rfl, bisectIter_succ]
    exact bisectIter_best_isSome eqPools 0 10 59 _ h1
  obtain ⟨rb, hfin⟩ := Option.isSome_iff_exists.mp h2
  obtain ⟨r, b⟩ := rb
  have hinv : BisectInv eqPools 0 10 (bisectIter eqPools 0 10 60
      { lo := 0, hi := 10 * 2, best := none, done := false }) :=
    bisectIter_inv eqPools 0 10 60 _
      ⟨le_rfl, by norm_num, le_rfl, fun _ _ hx => Option.noConfusion hx⟩
  have hbb : BestOK eqPools 0 10 (bisectFinalBest eqPools 0 10) := hinv.2.2.2
  obtain ⟨nS, hnS0, hnS2, heq, _⟩ := hbb r b hfin
  refine ⟨nS, r, hnS0, by linarith [hnS2], heq, ?_⟩
  rw [simulateMultiChoiceTrade_yes_def, hfin]

/-- C1 (amended): in the concrete scenario of four `{YES:100, NO:100}` pools
and budget 10, the YES-side Equilibrium Simulator leaves the target outcome
with a strictly higher probability and each of the three other outcomes with a
strictly lower probability than in the input.  (The general claim that the
resulting Σp is within 1e-3 of 1 whenever the initial Σp is approximately 1
fails; a separate counterexample theorem refutes it.) -/
theorem C1_amended_scenario :
    probabilityFromPool (eqPools 0).YES (eqPools 0).NO
        < probabilityFromPool ((simulateMultiChoiceTrade eqPools 0 10 .yes).newPools 0).YES
            ((simulateMultiChoiceTrade eqPools 0 10 .yes).newPools 0).NO ∧
    probabilityFromPool ((simulateMultiChoiceTrade eqPools 0 10 .yes).newPools 1).YES
        ((simulateMultiChoiceTrade eqPools 0 10 .yes).newPools 1).NO
      < probabilityFromPool (eqPools 1).YES (eqPools 1).NO ∧
    probabilityFromPool ((simulateMultiChoiceTrade eqPools 0 10 .yes).newPools 2).YES
        ((simulateMultiChoiceTrade eqPools 0 10 .yes).newPools 2).NO
      < probabilityFromPool (eqPools 2).YES (eqPools 2).NO ∧
    probabilityFromPool ((simulateMultiChoiceTrade eqPools 0 10 .yes).newPools 3).YES
        ((simulateMultiChoiceTrade eqPools 0 10 .yes).newPools 3).NO
      < probabilityFromPool (eqPools 3).YES (eqPools 3).NO := by
  obtain ⟨s, r, hs0, hs20, heq, hres⟩ := eq_trade_candidate
  obtain ⟨b, hb10, h0, hoth, _⟩ := eq_candidate s hs0 hs20 r heq
  have hc := costForShares_pos 100 100 s .no (by norm_num) (by norm_num) hs0
  rw [hres]
  dsimp only
  rw [h0, hoth 1 (by decide), hoth 2 (by decide), hoth 3 (by decide)]
  exact ⟨prob_after_yes_gt 100 100 b (by norm_num) (by norm_num) (by linarith),
    prob_after_no_lt 100 100 _ (by norm_num) (by norm_num) hc,
    prob_after_no_lt 100 100 _ (by norm_num) (by norm_num) hc,
    prob_after_no_lt 100 100 _ (by norm_num) (by norm_num) hc⟩

/-- C9 (counterexample): on four balanced `{100,100}` pools with a total of 20,
the marginal preview prices both legs with the plain binary `sharesForCost` at
the snapshot pools, while pricing the first leg through the Equilibrium
Simulator (as the claim asserts) yields strictly more shares, so the code does
not price the legs through the Equilibrium Simulator. -/
theorem C9_counterexample :
    marginalEstShares eqPools [0, 1] 20
        = [sharesForCost 100 100 10 .yes, sharesForCost 100 100 10 .yes] ∧
    sharesForCost 100 100 10 .yes < (marginalEstSharesSpec eqPools 0 1 20).1 := by
  constructor
  · show [sharesForCost (eqPools 0).YES (eqPools 0).NO (marginalPerCellAmount 20 [0, 1]) .yes,
      sharesForCost (eqPools 1).YES (eqPools 1).NO (marginalPerCellAmount 20 [0, 1]) .yes] = _
    rw [show marginalPerCellAmount 20 [(0 : Fin 4), 1] = 10 by
      unfold marginalPerCellAmount; norm_num]
    rfl
  · show sharesForCost 100 100 10 .yes
      < (simulateMultiChoiceTrade eqPools 0 (20 / 2) .yes).shares
    rw [show (20:ℝ) / 2 = 10 by norm_num]
    obtain ⟨s, r, hs0, hs20, heq, hres⟩ := eq_trade_candidate
    obtain ⟨b, hb10, _, _, hshares⟩ := eq_candidate s hs0 hs20 r heq
    rw [hres]
    dsimp only
    rw [hshares]
    have hmono := sharesForCost_yes_strictMono 100 100 10 b (by norm_num) (by norm_num)
      (by norm_num) hb10
    linarith

/-- C9 (amended): the marginal preview assigns each of the two constituent
outcomes exactly half of the requested total, and prices each leg
independently with the binary `sharesForCost` against the snapshot
pool; no updated PoolSet is threaded from the first leg into the second. -/
theorem C9_amended (pools : PoolSet) (amount : ℝ) (c₁ c₂ : Fin 4) :
    marginalPerCellAmount amount [c₁, c₂] = amount / 2 ∧
    marginalEstShares pools [c₁, c₂] amount
      = [sharesForCost (pools c₁).YES (pools c₁).NO (amount / 2) .yes,
          sharesForCost (pools c₂).YES (pools c₂).NO (amount / 2) .yes] := by
  have h2 : marginalPerCellAmount amount [c₁, c₂] = amount / 2 := by
    unfold marginalPerCellAmount
    norm_num
  refine ⟨h2, ?_⟩
  show [sharesForCost (pools c₁).YES (pools c₁).NO (marginalPerCellAmount amount [c₁, c₂]) .yes,
    sharesForCost (pools c₂).YES (pools c₂).NO (marginalPerCellAmount amount [c₁, c₂]) .yes] = _
  rw [h2]

/-! ## A PoolSet refuting the general Σp convergence guarantee (C1).
The target pool is tiny (`1e-5` reserves, probability 1/2) and the three other
pools are `{YES:50, NO:10}` (probability 1/6 each), so the initial Σp is
exactly 1.  Near the budget boundary the direct YES buy in the tiny target
jumps the target probability from 1/2 to above 121/122, so every bisection
candidate leaves Σp either above 1.28 or below 0.95. -/

noncomputable def cePools : PoolSet :=
  fun i => if i = 0 then { YES := 1/100000, NO := 1/100000 } else { YES := 50, NO := 10 }

lemma sqrt_le_num {x b : ℝ} (hb : 0 ≤ b) (h : x ≤ b ^ 2) : Real.sqrt x ≤ b := by
  calc Real.sqrt x ≤ Real.sqrt (b ^ 2) := Real.sqrt_le_sqrt h
    _ = b := Real.sqrt_sq hb

lemma cePools_zero : cePools 0 = { YES := 1/100000, NO := 1/100000 } := if_pos rfl

lemma cePools_other (i : Fin 4) (hi : i ≠ 0) : cePools i = { YES := 50, NO := 10 } := if_neg hi

lemma ce_sum_init : sumOfProbabilities cePools = 1 := by
  unfold sumOfProbabilities
  rw [Fin.sum_univ_four, cePools_zero, cePools_other 1 (by decide),
    cePools_other 2 (by decide), cePools_other 3 (by decide)]
  norm_num [probabilityFromPool]

lemma ce_totalNoCost (s : ℝ) :
    totalNoCost cePools 0 s = 3 * costForShares 50 10 s .no := by
  unfold totalNoCost
  rw [show (Finset.univ.filter (· ≠ (0 : Fin 4))) = ({1, 2, 3} : Finset (Fin 4)) from by decide]
  rw [Finset.sum_insert (by decide), Finset.sum_insert (by decide), Finset.sum_singleton]
  show costForShares 50 10 s .no + (costForShares 50 10 s .no
    + costForShares 50 10 s .no) = 3 * costForShares 50 10 s .no
  ring

lemma ce_discriminant_no (s : ℝ) :
    costDiscriminant 50 10 s .no = s ^ 2 + 80 * s + 3600 := by
  unfold costDiscriminant otherPool
  ring

lemma ce_cost_le (s : ℝ) (hs0 : 0 < s) (hs20 : s ≤ 20) :
    costForShares 50 10 s .no ≤ 17.45 := by
  rw [costForShares, if_neg (not_le.mpr hs0), ce_discriminant_no]
  have hd : s ^ 2 + 80 * s + 3600 ≤ 5600 := by nlinarith
  have hsq : Real.sqrt (s ^ 2 + 80 * s + 3600) ≤ 74.9 :=
    sqrt_le_num (by norm_num) (hd.trans (by norm_num))
  linarith

lemma ce_noLegsOk (s : ℝ) (hs0 : 0 ≤ s) : noLegsOk cePools 0 s := fun i _ =>
  Or.inr (costDiscriminant_nonneg (cePools i).YES (cePools i).NO s .no
    (by by_cases h : i = 0 <;> norm_num [cePools, h])
    (by by_cases h : i = 0 <;> norm_num [cePools, h]) hs0)

lemma ce_poolsAfterNoLegs (s : ℝ) (i : Fin 4) (hi : i ≠ 0) :
    poolsAfterNoLegs cePools 0 s i
      = poolAfterTrade 50 10 (costForShares 50 10 s .no) .no := by
  unfold poolsAfterNoLegs
  rw [if_neg hi]
  show poolAfterTrade (cePools i).YES (cePools i).NO
    (costForShares (cePools i).YES (cePools i).NO s .no) .no = _
  rw [cePools_other i hi]

lemma ce_sum_afterNoLegs (s : ℝ) :
    sumOfProbabilities (poolsAfterNoLegs cePools 0 s)
      = 1/2 + 3 * probabilityFromPool
          (poolAfterTrade 50 10 (costForShares 50 10 s .no) .no).YES
          (poolAfterTrade 50 10 (costForShares 50 10 s .no) .no).NO := by
  unfold sumOfProbabilities
  rw [Fin.sum_univ_four, ce_poolsAfterNoLegs s 1 (by decide),
    ce_poolsAfterNoLegs s 2 (by decide), ce_poolsAfterNoLegs s 3 (by decide)]
  have h0 : poolsAfterNoLegs cePools 0 s 0 = cePools 0 := by
    unfold poolsAfterNoLegs
    rw [if_pos rfl]
  rw [h0]
  have hp : probabilityFromPool (cePools 0).YES (cePools 0).NO = 1/2 := by
    norm_num [cePools, probabilityFromPool]
  rw [hp]
  ring

lemma ce_sum_split (P : Pool) (s : ℝ) :
    sumOfProbabilities (fun i => if i = 0 then P else poolsAfterNoLegs cePools 0 s i)
      = probabilityFromPool P.YES P.NO
        + 3 * probabilityFromPool
            (poolAfterTrade 50 10 (costForShares 50 10 s .no) .no).YES
            (poolAfterTrade 50 10 (costForShares 50 10 s .no) .no).NO := by
  unfold sumOfProbabilities
  rw [Fin.sum_univ_four]
  dsimp only
  rw [if_pos rfl, if_neg (by decide : ¬(1 : Fin 4) = 0), if_neg (by decide : ¬(2 : Fin 4) = 0),
    if_neg (by decide : ¬(3 : Fin 4) = 0), ce_poolsAfterNoLegs s 1 (by decide),
    ce_poolsAfterNoLegs s 2 (by decide), ce_poolsAfterNoLegs s 3 (by decide)]
  ring

/-- Probability of the other pools after the NO leg, bounded on both sides. -/
lemma ce_other_prob_eq (c : ℝ) (hc : 0 ≤ c) :
    probabilityFromPool (poolAfterTrade 50 10 c .no).YES (poolAfterTrade 50 10 c .no).NO
      = 500 / ((50 + c) ^ 2 + 500) := by
  have := prob_after_no_eq 50 10 c (by norm_num) (by norm_num) hc
  rw [this]
  norm_num

/-- The tiny target pool jumps above `121/122` under any direct buy beyond the
1e-4 threshold. -/
lemma ce_target_prob_ge (b : ℝ) (hb : 0.0001 < b) :
    (121:ℝ)/122 ≤ probabilityFromPool
      (poolAfterTrade (1/100000) (1/100000) b .yes).YES
      (poolAfterTrade (1/100000) (1/100000) b .yes).NO := by
  rw [prob_after_yes_eq (1/100000) (1/100000) b (by norm_num) (by norm_num)
    (by norm_num at hb ⊢; linarith)]
  rw [div_le_div_iff₀ (by norm_num) (by positivity)]
  nlinarith

/-- Every feasible bisection candidate on `cePools` with budget 10 leaves Σp
more than 1e-3 away from 1: above 1.28 when the direct buy fires, below 0.95
when it does not. -/
lemma ce_candidate_off (s : ℝ) (hs0 : 0 < s) (hs20 : s < 20) (r : YesBuyResult)
    (h : simulateMultiChoiceYesBuy cePools 0 10 s = some r) :
    ¬ |sumOfProbabilities r.newPools - 1| ≤ 0.001 := by
  have hc0 : 0 < costForShares 50 10 s .no :=
    costForShares_pos 50 10 s .no (by norm_num) (by norm_num) hs0
  have hcle : costForShares 50 10 s .no ≤ 17.45 := ce_cost_le s hs0 hs20.le
  have hpo_eq := ce_other_prob_eq (costForShares 50 10 s .no) hc0.le
  have hs42 : s * (4 - 2) = 2 * s := by ring
  simp only [simulateMultiChoiceYesBuy, ce_totalNoCost] at h
  split_ifs at h with h1 h2 h3
  · -- the direct YES buy fires: Σp jumps above 1.28
    rw [Option.some.injEq] at h
    subst h
    have htp : poolsAfterNoLegs cePools 0 s 0 = cePools 0 := by
      unfold poolsAfterNoLegs
      rw [if_pos rfl]
    dsimp only
    rw [ce_sum_split, htp, cePools_zero]
    have hpt := ce_target_prob_ge (10 - (3 * costForShares 50 10 s .no - s * (4 - 2))) h3
    have hpo_ge : (0.099:ℝ) ≤ 500 / ((50 + costForShares 50 10 s .no) ^ 2 + 500) := by
      rw [le_div_iff₀ (by positivity)]
      nlinarith
    rw [hpo_eq] at *
    intro habs
    have h1a := (abs_le.mp habs).2
    norm_num at hpt h1a hpo_ge ⊢
    linarith
  · -- the direct buy does not fire: Σp stays below 0.95
    rw [Option.some.injEq] at h
    subst h
    dsimp only
    rw [ce_sum_afterNoLegs]
    push_neg at h3
    have hcge : (3.33:ℝ) ≤ costForShares 50 10 s .no := by nlinarith
    have hpo_le : 500 / ((50 + costForShares 50 10 s .no) ^ 2 + 500) ≤ (0.15:ℝ) := by
      rw [div_le_iff₀ (by positivity)]
      nlinarith
    rw [hpo_eq]
    intro habs
    have h1a := (abs_le.mp habs).1
    norm_num at hpo_le h1a ⊢
    linarith

/-- The binary fallback on `cePools` with budget 10 also leaves Σp far above 1
(the three untouched pools keep probability 1/6 each while the tiny target
jumps to nearly 1). -/
lemma ce_fallback_off :
    ¬ |sumOfProbabilities (binaryTrade cePools 0 10 .yes).newPools - 1| ≤ 0.001 := by
  have hpt := ce_target_prob_ge 10 (by norm_num)
  have hsum : sumOfProbabilities (binaryTrade cePools 0 10 .yes).newPools
      = probabilityFromPool (poolAfterTrade (1/100000) (1/100000) 10 .yes).YES
          (poolAfterTrade (1/100000) (1/100000) 10 .yes).NO + 1/2 := by
    unfold binaryTrade
    dsimp only
    unfold sumOfProbabilities
    rw [Fin.sum_univ_four]
    dsimp only
    rw [if_pos rfl, if_neg (by decide : ¬(1 : Fin 4) = 0),
      if_neg (by decide : ¬(2 : Fin 4) = 0), if_neg (by decide : ¬(3 : Fin 4) = 0),
      cePools_zero, cePools_other 1 (by decide), cePools_other 2 (by decide),
      cePools_other 3 (by decide)]
    dsimp only
    have hp16 : probabilityFromPool (50:ℝ) 10 = 1/6 := by
      norm_num [probabilityFromPool]
    rw [hp16]
    ring
  rw [hsum]
  intro habs
  have h1a := (abs_le.mp habs).2
  norm_num at hpt h1a
  linarith

/-- C1 (counterexample): a 4-outcome PoolSet with strictly positive reserves
and Σp exactly 1 (target `{1e-5, 1e-5}`, three others `{50, 10}`), a feasible
positive budget 10 (the bisection keeps a candidate: `noShares = 10` is
feasible), for which the YES-side `simulateMultiChoiceTrade` returns a PoolSet
whose Σp is more than 1e-3 away from 1. -/
theorem C1_counterexample :
    sumOfProbabilities cePools = 1 ∧
    (simulateMultiChoiceYesBuy cePools 0 10 10).isSome = true ∧
    ¬ |sumOfProbabilities (simulateMultiChoiceTrade cePools 0 10 .yes).newPools - 1|
        ≤ 0.001 := by
  have hc10 : costForShares 50 10 10 .no ≤ 8.55 := by
    rw [costForShares, if_neg (by norm_num), ce_discriminant_no]
    have hle : ((10:ℝ) ^ 2 + 80 * 10 + 3600) ≤ 67.1 ^ 2 := by norm_num
    have hsq := sqrt_le_num (by norm_num : (0:ℝ) ≤ 67.1) hle
    linarith
  refine ⟨ce_sum_init, ?_, ?_⟩
  · simp only [simulateMultiChoiceYesBuy, ce_totalNoCost]
    rw [if_pos (ce_noLegsOk 10 (by norm_num)), if_neg (by push_neg; nlinarith)]
    split_ifs <;> simp
  · rcases simulateMultiChoiceTrade_yes_cases cePools 0 10 (by norm_num) with
      hf | ⟨nS, r, h0, h2, heq, hres⟩
    · rw [hf]
      exact ce_fallback_off
    · rw [hres]
      dsimp only
      exact ce_candidate_off nS h0 (by linarith) r heq

end CondMarkets
